import Mathlib

/-!
# Verification of the `commonmark` Go package against its specification

This development shallowly embeds the functions of the `ttencate/commonmark`
repository that the specification's claims are about and settles each claim.
Lines are modelled as `List Char` (one `Char` per rune of the Go byte slice;
all inputs of interest are ASCII-compatible, and the Go code iterates runes
wherever multi-byte sequences matter).
-/

namespace Commonmark

/-! ## Line source (preprocess.go)

`scanLines` is the `bufio.SplitFunc` from `preprocess.go`: it splits on CR,
LF or CRLF and returns the number of bytes to advance plus the token.  The
driver that repeatedly applies it (`newScanner`) is not part of the sources,
so the driving loop is modelled from the spec (§4.1): the whole input is in
memory, so every call sees all remaining data (`atEOF` behaviour). -/

/-- From `scanLines` (preprocess.go): split off the first line of `data`,
returning `(advance, token)`.  The terminator (CR, LF or CRLF) is consumed
but not part of the token; a trailing unterminated line is yielded as-is.
Only called on nonempty `data`. -/
def scanLinesSplit (data : List Char) : Nat × List Char :=
  match data.findIdx? (fun c => c = '\r' || c = '\n') with
  | some i =>
      if data.getD i ' ' = '\r' && data.getD (i + 1) 'x' = '\n' then
        (i + 2, data.take i)
      else
        (i + 1, data.take i)
  | none => (data.length, data)

/-- Modelled from the spec: the missing `newScanner` driver (§4.1), written
with explicit fuel so that it is structurally recursive.  Every split
advances by at least one byte, so `data.length` is always enough fuel. -/
def scanAllAux : Nat → List Char → List (List Char)
  | 0, _ => []
  | _, [] => []
  | fuel + 1, data =>
      let p := scanLinesSplit data
      p.2 :: scanAllAux fuel (data.drop p.1)

/-- Modelled from the spec: the missing `newScanner` driver (§4.1).  It
consumes the entire in-memory input and yields the `scanLines` tokens in
order; since the input is a byte slice there is no I/O and no failure. -/
def scanAll (data : List Char) : List (List Char) :=
  scanAllAux data.length data

/-- Modelled from the spec: the scanner over an in-memory byte slice never
produces an error (`scanner.Err()` is reserved for I/O errors from the
underlying reader; `newScanner` is absent from the sources, §4.1/§4.2
failure semantics). -/
def scannerErr (_data : List Char) : Option String := none

/-- From `tabsToSpaces` (preprocess.go): the worker loop.  `col` is Go's
`runeCount`: the number of runes emitted so far (a tab counts as the number
of spaces it expanded to). -/
def tabsToSpacesAux : Nat → List Char → List Char
  | _, [] => []
  | col, c :: rest =>
    if c = '\t' then
      let n := 4 - col % 4
      List.replicate n ' ' ++ tabsToSpacesAux (col + n) rest
    else
      c :: tabsToSpacesAux (col + 1) rest

/-- From `tabsToSpaces` (preprocess.go): returns the line unchanged when it
contains no tab, otherwise expands every tab to the next multiple-of-four
column. -/
def tabsToSpaces (line : List Char) : List Char :=
  if line.contains '\t' then tabsToSpacesAux 0 line else line

/-- The lines handed to the block analyzer: each scanner token is
tab-expanded and a single `'\n'` sentinel is appended
(preprocess.go / blockParser.parse). -/
def processedLines (data : List Char) : List (List Char) :=
  (scanAll data).map (fun t => tabsToSpaces t ++ ['\n'])

/-- The tab expansion described by the spec's words: the column of a tab is
its byte offset within the logical line before any expansion (other runes
advance the offset by their UTF-8 size, a tab by one byte). -/
def byteOffsetTabsToSpaces : Nat → List Char → List Char
  | _, [] => []
  | off, c :: rest =>
    if c = '\t' then
      List.replicate (4 - off % 4) ' ' ++ byteOffsetTabsToSpaces (off + 1) rest
    else
      c :: byteOffsetTabsToSpaces (off + c.utf8Size) rest

/-- From `indentation` (unnamed/part_000): index of the first non-space, or
`none` when the line consists only of spaces (the branch on which the code
asserts). -/
def indentationOpt (line : List Char) : Option Nat :=
  line.findIdx? (fun c => c ≠ ' ')

/-- From `indentation` (unnamed/part_000): the asserting branch returns 0. -/
def indentation (line : List Char) : Nat :=
  (indentationOpt line).getD 0

/-! ## The block analyzer (unnamed/part_000)

Blocks are modelled by a kind tag plus content bytes; the open-block stack
is a list whose **head is the top** (the reverse of Go's slice order), and a
closed block is materialized into its parent's child list when it is popped
(Go appends the child pointer on creation and mutates it in place; the
result is the same tree). -/

/-- The block types of unnamed/part_000 (`document`, `blockQuote`,
`paragraph`, `indentedCodeBlock`, `atxHeader` — also used for setext
headers — and `horizontalRule`). -/
inductive BKind where
  | document
  | blockQuote
  | paragraph
  | indentedCode
  | atxHeader (level : Nat)
  | horizontalRule
deriving DecidableEq

/-- A finished block: kind, raw content, children. -/
inductive BTree where
  | node (kind : BKind) (content : List Char) (children : List BTree)

/-- A block still on the open-block stack: its kind, the content
accumulated so far, and the already-closed children. -/
structure OpenBlock where
  kind : BKind
  content : List Char
  children : List BTree

/-- `CanContain` from unnamed/part_000: `document` and `blockQuote` accept
any child, everything else none. -/
def canContain : BKind → Bool
  | .document => true
  | .blockQuote => true
  | _ => false

/-- `AcceptsLines` from unnamed/part_000: `paragraph` and
`indentedCodeBlock` override the default `false`. -/
def acceptsLines : BKind → Bool
  | .paragraph => true
  | .indentedCode => true
  | _ => false

/-- `AcceptsLiteralLines` from unnamed/part_000: only
`indentedCodeBlock`. -/
def acceptsLiteralLines : BKind → Bool
  | .indentedCode => true
  | _ => false

/-- `isBlank` from unnamed/part_000: the first non-space character is the
final one, or there is none. -/
def isBlank (line : List Char) : Bool :=
  match indentationOpt line with
  | some i => i == line.length - 1
  | none => true

/-- The `blank` computation of Phase 1 (`line[indent] == '\n'`,
unnamed/part_000 `blockParser.parse`). -/
def blankAt (line : List Char) : Bool :=
  line.getD (indentation line) ' ' == '\n'

/-- `stripBlockQuoteMarker` from unnamed/part_000: drop the leading spaces
and the `>`, then one optional following space. -/
def stripBlockQuoteMarker (line : List Char) : List Char :=
  let l := line.drop (indentation line + 1)
  if l.head? == some ' ' then l.tail else l

/-- The Phase 1 per-block continuation test of unnamed/part_000
`blockParser.parse`: `none` when the block does not match, otherwise the
line after this block's stripping. -/
def matchBlock (k : BKind) (line : List Char) : Option (List Char) :=
  match k with
  | .indentedCode =>
      if 4 ≤ indentation line || blankAt line then
        some (if 4 < line.length then line.drop 4 else line.drop (line.length - 1))
      else none
  | .paragraph => if blankAt line then none else some line
  | .blockQuote =>
      if blankAt line then none
      else if line.getD (indentation line) ' ' == '>' then
        some (stripBlockQuoteMarker line)
      else some line
  | _ => some line

/-- Phase 1 of unnamed/part_000 `blockParser.parse`: walk the open blocks
bottom-to-top, stop at the first failure; returns the number of blocks
matched and the line transformed by the matched blocks' stripping. -/
def phase1 : List BKind → List Char → Nat × List Char
  | [], line => (0, line)
  | k :: rest, line =>
      match matchBlock k line with
      | none => (0, line)
      | some line' =>
          let p := phase1 rest line'
          (p.1 + 1, p.2)

def trimLeftSpaces (l : List Char) : List Char :=
  l.dropWhile (fun c => c == ' ')

def trimRightSpaces (l : List Char) : List Char :=
  (l.reverse.dropWhile (fun c => c == ' ')).reverse

/-- `bytes.Trim(l, " ")`. -/
def trimSpaces (l : List Char) : List Char :=
  trimLeftSpaces (trimRightSpaces l)

/-- The closing-sequence strip of `parseATXHeader` (unnamed/part_000): from
the position before the final character, skip spaces, then `#`s; if a space
precedes, cut there; finally trim spaces on both sides. -/
def atxRawContent (l : List Char) : List Char :=
  let body := l.take (l.length - 1)
  let r2 := (body.reverse.dropWhile (fun c => c == ' ')).dropWhile (fun c => c == '#')
  let cut := if r2.head? == some ' ' then r2.reverse else l
  trimSpaces cut

/-- `parseATXHeader` from unnamed/part_000: returns the level and the raw
content, or `none` where the code returns `-1`. -/
def parseATXHeader (line : List Char) : Option (Nat × List Char) :=
  let indent := indentation line
  if 3 < indent then none
  else
    let l := line.drop indent
    let level := ((l.findIdx? (fun c => c ≠ '#')).getD 0 : Nat)
    if level < 1 || 6 < level then none
    else
      let l2 := l.drop level
      match l2.head? with
      | none => none
      | some c =>
          if c == ' ' || c == '\n' then some (level, atxRawContent l2) else none

/-- `parseSetextUnderline` from unnamed/part_000: the regex
`^ {0,3}(=+|-+) *\n$`; level 1 for `=`, 2 for `-`. -/
def parseSetextUnderline (line : List Char) : Option Nat :=
  let iw := (line.takeWhile (fun c => c == ' ')).length
  if 3 < iw then none
  else
    match line.drop iw with
    | [] => none
    | c :: _ =>
        if c == '=' || c == '-' then
          if ((line.drop iw).dropWhile (fun x => x == c)).dropWhile (fun x => x == ' ')
              == ['\n'] then
            if c == '=' then some 1 else some 2
          else none
        else none

/-- `hasOneLine` from unnamed/part_000: nonempty, and no `'\n'` anywhere
except possibly as the final character. -/
def hasOneLine (content : List Char) : Bool :=
  !content.isEmpty && !content.dropLast.contains '\n'

/-- `isHorizontalRule` from unnamed/part_000: the index-tracking scan. -/
def isHorizontalRuleGo : List Char → Nat → Option Char → Nat → Bool
  | [], _, _, count => decide (3 ≤ count)
  | c :: rest, i, ch, count =>
      if c == ' ' || c == '\n' then isHorizontalRuleGo rest (i + 1) ch count
      else if !(c == '-') && !(c == '_') && !(c == '*') then false
      else
        match ch with
        | none => if 4 ≤ i then false else isHorizontalRuleGo rest (i + 1) (some c) 1
        | some d => if c == d then isHorizontalRuleGo rest (i + 1) (some d) (count + 1)
                    else false

def isHorizontalRule (line : List Char) : Bool :=
  isHorizontalRuleGo line 0 none 0

/-- `closeLastBlock` (unnamed/part_000): pop the top open block and
materialize it as the last child of its parent. -/
def closeLastBlock : List OpenBlock → List OpenBlock
  | t :: p :: rest =>
      { p with children := p.children ++ [BTree.node t.kind t.content t.children] } :: rest
  | s => s

/-- The walk of `addChild` (unnamed/part_000) below the topmost block. -/
def addChildGo (child : OpenBlock) : OpenBlock → List OpenBlock → List OpenBlock
  | top, [] => if canContain top.kind then [child, top] else []
  | top, next :: rest =>
      if canContain top.kind then child :: top :: next :: rest
      else
        addChildGo child
          { next with children := next.children ++ [BTree.node top.kind top.content top.children] }
          rest

/-- `addChild` (unnamed/part_000): close blocks from the top until one can
contain the child, then append and open the child. -/
def addChild (child : OpenBlock) : List OpenBlock → List OpenBlock
  | [] => []
  | top :: rest => addChildGo child top rest

/-- `replaceOpenBlock` (unnamed/part_000): replace the top open block (and
the parent's last-child pointer, which in this representation materializes
only on close). -/
def replaceOpen (stack : List OpenBlock) (b : OpenBlock) : List OpenBlock :=
  match stack with
  | _ :: rest => b :: rest
  | [] => []

/-- Phase 2 of unnamed/part_000 `blockParser.parse`, with explicit fuel
(only the blockquote branch loops, and it always shortens the line, so
`line.length + 1` is enough fuel).  Returns the new stack and `some line`
when the line remains to be appended in Phase 3, `none` when consumed. -/
def phase2Aux : Nat → List OpenBlock → List Char → List OpenBlock × Option (List Char)
  | 0, stack, line => (stack, some line)
  | fuel + 1, stack, line =>
      let top := stack.headD ⟨.document, [], []⟩
      if acceptsLiteralLines top.kind then (stack, some line)
      else if ¬(top.kind = .paragraph) ∧ 4 ≤ indentation line then
        (addChild ⟨.indentedCode, [], []⟩ stack, some (line.drop 4))
      else if line.getD (indentation line) ' ' == '>' then
        phase2Aux fuel (addChild ⟨.blockQuote, [], []⟩ stack) (stripBlockQuoteMarker line)
      else
        match parseATXHeader line with
        | some lc =>
            (closeLastBlock (addChild ⟨.atxHeader lc.1, lc.2, []⟩ stack), none)
        | none =>
            if top.kind = .paragraph ∧ (parseSetextUnderline line).isSome
                ∧ hasOneLine top.content then
              (closeLastBlock
                (replaceOpen stack ⟨.atxHeader ((parseSetextUnderline line).getD 0),
                  top.content, []⟩), none)
            else if isHorizontalRule line then
              (closeLastBlock (addChild ⟨.horizontalRule, [], []⟩ stack), none)
            else if isBlank line then (stack, none)
            else if ¬ acceptsLines top.kind then
              (addChild ⟨.paragraph, [], []⟩ stack, some line)
            else (stack, some line)

def phase2 (stack : List OpenBlock) (line : List Char) :
    List OpenBlock × Option (List Char) :=
  phase2Aux (line.length + 1) stack line

/-- Phase 3 of unnamed/part_000 `blockParser.parse`: append the line to the
top block (`paragraph.AppendLine` strips leading spaces, the base method
appends verbatim). -/
def appendLineTop (stack : List OpenBlock) (line : List Char) : List OpenBlock :=
  match stack with
  | top :: rest =>
      { top with
        content := top.content ++
          (if top.kind = .paragraph then trimLeftSpaces line else line) } :: rest
  | [] => []

def closeTimes : Nat → List OpenBlock → List OpenBlock
  | 0, s => s
  | k + 1, s => closeTimes k (closeLastBlock s)

/-- One iteration of the scan loop of unnamed/part_000
`blockParser.parse`: preprocess the token, match open blocks (Phase 1),
close the unmatched, open new blocks (Phase 2), append the rest
(Phase 3). -/
def parseLine (stack : List OpenBlock) (token : List Char) : List OpenBlock :=
  let line := tabsToSpaces token ++ ['\n']
  let m := phase1 (stack.reverse.map OpenBlock.kind) line
  let stack1 := closeTimes (stack.length - m.1) stack
  let r := phase2 stack1 m.2
  match r.2 with
  | none => r.1
  | some l => appendLineTop r.1 l

def materializeGo : OpenBlock → List OpenBlock → BTree
  | b, [] => BTree.node b.kind b.content b.children
  | t, next :: rest =>
      materializeGo
        { next with children := next.children ++ [BTree.node t.kind t.content t.children] }
        rest

/-- Close every remaining open block at end of input and return the
document tree. -/
def materializeAll : List OpenBlock → BTree
  | [] => BTree.node .document [] []
  | t :: rest => materializeGo t rest

/-- `parseBlocks`/`blockParser.parse` of unnamed/part_000 over the
(spec-modelled) scanner; the error return propagates `scanner.Err()`. -/
def parseBlocksFull (data : List Char) : Except String BTree :=
  match scannerErr data with
  | some e => .error e
  | none => .ok (materializeAll ((scanAll data).foldl parseLine [⟨.document, [], []⟩]))

/-- The continuation condition the claim states for an open BlockQuote:
not blank, a `>` at the first non-space position, indentation at most 3. -/
def blockQuoteClaimMatch (line : List Char) : Bool :=
  !(line.getD (indentation line) ' ' == '\n')
    && (line.getD (indentation line) ' ' == '>')
    && decide (indentation line ≤ 3)

/-- The raw content as the claim words it, computed on the remainder of the
line *without* its terminating newline (`dropLast`): strip an optional
closing run of `#` preceded by a space, then leading and trailing
spaces. -/
def claimATXContent (l : List Char) : List Char :=
  let body := l.dropLast
  let r2 := (body.reverse.dropWhile (fun c => c == ' ')).dropWhile (fun c => c == '#')
  trimSpaces (if r2.head? == some ' ' then r2.reverse else body)

/-- The claim's reading of `parseATXHeader`: same recognition, but the raw
content never includes the line terminator. -/
def claimATXHeader (line : List Char) : Option (Nat × List Char) :=
  if 3 < indentation line then none
  else
    let l := line.drop (indentation line)
    let level := ((l.findIdx? (fun c => c ≠ '#')).getD 0 : Nat)
    if level < 1 || 6 < level then none
    else
      match (l.drop level).head? with
      | none => none
      | some c =>
          if c == ' ' || c == '\n' then some (level, claimATXContent (l.drop level))
          else none

/-- `c == ' ' || c == '\n'`: the characters trimmed and collapsed in code
spans. -/
def isSpNL (c : Char) : Bool := c == ' ' || c == '\n'

/-- `collapseSpace` from inline.go: the loop with its `prevWasSpace`
flag. -/
def collapseSpaceGo : Bool → List Char → List Char
  | _, [] => []
  | prev, c :: rest =>
      if isSpNL c then
        (if prev then collapseSpaceGo true rest else ' ' :: collapseSpaceGo true rest)
      else c :: collapseSpaceGo false rest

def collapseSpace (l : List Char) : List Char := collapseSpaceGo false l

/-- `bytes.Trim(code, " \n")` as used by `processCodeSpans`. -/
def trimLeftSpNL (l : List Char) : List Char := l.dropWhile isSpNL

def trimRightSpNL (l : List Char) : List Char :=
  (l.reverse.dropWhile isSpNL).reverse

def trimSpaceNL (l : List Char) : List Char := trimRightSpNL (trimLeftSpNL l)

/-- Two consecutive spaces somewhere in the list. -/
def hasDoubleSpace : List Char → Bool
  | c1 :: c2 :: rest => (c1 == ' ' && c2 == ' ') || hasDoubleSpace (c2 :: rest)
  | _ => false

/-- The claim's cleanliness of a code span's bytes: no leading or trailing
space, no two consecutive spaces, no newline. -/
def codeSpanClean (l : List Char) : Bool :=
  !(l.head? == some ' ') && !(l.getLast? == some ' ')
    && !hasDoubleSpace l && !l.contains '\n'

/-- The length of the backtick string starting at index `i`. -/
def btRunLen (text : List Char) (i : Nat) : Nat :=
  ((text.drop i).takeWhile (fun c => c == '`')).length

/-- The `backtickStringsByLength` map of `processCodeSpans` (inline.go):
an association list from run length to the run's start index (a key is
inserted only when absent, so first match is the stored opener). -/
def btLookup (n : Nat) : List (Nat × Nat) → Option Nat
  | [] => none
  | (k, v) :: rest => if k == n then some v else btLookup n rest

/-- The scan loop of `processCodeSpans` (inline.go) with explicit fuel
(`i` advances every step, so `text.length + 1` is enough):
skip non-backticks and escaped backticks, remember unmatched backtick-string
lengths, and on the first match return the code-span content
`collapseSpace(Trim(text[opener+n : closeStart], " \n"))`; the Go loop
breaks after this first span. -/
def processCodeSpansGo (text : List Char) : Nat → Nat → List (Nat × Nat) → Option (List Char)
  | 0, _, _ => none
  | fuel + 1, i, seen =>
      if i < text.length then
        if text.getD i 'x' ≠ '`' then processCodeSpansGo text fuel (i + 1) seen
        else if 0 < i && text.getD (i - 1) 'x' == '\\' then
          processCodeSpansGo text fuel (i + 1) seen
        else
          match btLookup (btRunLen text i) seen with
          | some opener =>
              some (collapseSpace (trimSpaceNL
                ((text.take i).drop (opener + btRunLen text i))))
          | none =>
              processCodeSpansGo text fuel (i + btRunLen text i + 1)
                ((btRunLen text i, i) :: seen)
      else none

/-- One invocation of `processCodeSpans` on a text node: the content of the
code span it extracts, if any. -/
def processCodeSpans (text : List Char) : Option (List Char) :=
  processCodeSpansGo text (text.length + 1) 0 []

/-! ## Entity decoding (unnamed/part_013 `inlineParser.parse`, `&` case)

The named-entity table (`htmlEntities`) is the external static mapping the
spec leaves abstract; it is a parameter here.  Numeric entities go through
`strconv.ParseUint(…, base, 32)` and `fmt.Sprintf("%c", codepoint)`. -/

/-- One digit of `strconv.ParseUint`: value of `c` in the given base. -/
def digitVal (base : Nat) (c : Char) : Option Nat :=
  let v : Nat :=
    if '0' ≤ c ∧ c ≤ '9' then c.toNat - '0'.toNat
    else if 'a' ≤ c ∧ c ≤ 'z' then c.toNat - 'a'.toNat + 10
    else if 'A' ≤ c ∧ c ≤ 'Z' then c.toNat - 'A'.toNat + 10
    else 99
  if v < base then some v else none

/-- The accumulation loop of `strconv.ParseUint(…, base, 32)`: fails on a
non-digit or when the value exceeds `1<<32 - 1`. -/
def parseUintGo (base : Nat) : List Char → Nat → Option Nat
  | [], acc => some acc
  | c :: rest, acc =>
      match digitVal base c with
      | none => none
      | some d =>
          if 4294967295 < acc * base + d then none
          else parseUintGo base rest (acc * base + d)

/-- `strconv.ParseUint(s, base, 32)`: an empty digit string is an error. -/
def parseUint32 (base : Nat) (ds : List Char) : Option Nat :=
  match ds with
  | [] => none
  | _ => parseUintGo base ds 0

/-- `fmt.Sprintf("%c", cp)`: the rune for a valid codepoint, U+FFFD for
surrogates and values above U+10FFFF. -/
def sprintfC (cp : Nat) : Char :=
  if cp < 0xd800 ∨ (0xdfff < cp ∧ cp < 0x110000) then Char.ofNat cp
  else Char.ofNat 0xfffd

/-- The entity-to-codepoints computation of the `&` case: `#x`/`#X` plus
hex digits, `#` plus decimal digits, or a named-table lookup; `none`
stands for Go's empty `codepoints` string (the literal-`&` outcome). -/
def decodeEntity (table : List Char → Option (List Char)) :
    List Char → Option (List Char)
  | [] => none
  | '#' :: rest =>
      match rest with
      | [] => none
      | c :: ds =>
          if c == 'x' || c == 'X' then
            (parseUint32 16 ds).map (fun cp => [sprintfC cp])
          else
            (parseUint32 10 (c :: ds)).map (fun cp => [sprintfC cp])
  | name => table name

/-- `bytes.IndexByte(p.data[p.pos+1:], ';')`, shifted to an absolute
index. -/
def semiIdx (data : List Char) (pos : Nat) : Option Nat :=
  ((data.drop (pos + 1)).findIdx? (fun c => c = ';')).map (fun i => i + (pos + 1))

/-- The `&` case of `inlineParser.parse` (unnamed/part_013): either an
entity is recognized (its decoded bytes are emitted and the position jumps
past the `;`), or the `&` stays literal and the position advances by one. -/
def ampStep (table : List Char → Option (List Char)) (data : List Char)
    (pos : Nat) : Option (List Char) × Nat :=
  match semiIdx data pos with
  | none => (none, pos + 1)
  | some semicolon =>
      let cps := (decodeEntity table ((data.take semicolon).drop (pos + 1))).getD []
      if cps.isEmpty then (none, pos + 1) else (some cps, semicolon + 1)

/-- The value denoted by a digit string (used to specify `ParseUint`). -/
def digitsVal (base : Nat) (ds : List Char) : Nat :=
  ds.foldl (fun acc c => acc * base + (digitVal base c).getD 0) 0

/-! ## Emphasis processing (inline.go `processEmphasis`)

The tree surgery of `processEmphasis` moves siblings below new
Emphasis/StrongEmphasis nodes; for the matching discipline only the
delimiter runs matter, so the scan is modelled over the text of a node:
runs are counted, runs longer than 3 are skipped, a closing run is matched
against the topmost stack entry of the same character, and after a match
the scan continues on the remaining closer delimiters at the start of the
split-off text node (`prev = none`). -/

def isASCIISpace (c : Char) : Bool :=
  c == ' ' || c == '\n' || c == '\r' || c == '\t' || c == '\x0c'

def isASCIIAlNum (c : Char) : Bool :=
  (decide ('A' ≤ c) && decide (c ≤ 'Z')) || (decide ('a' ≤ c) && decide (c ≤ 'z'))
    || (decide ('0' ≤ c) && decide (c ≤ '9'))

structure DelimEntry where
  delimChar : Char
  numDelims : Nat
deriving DecidableEq

inductive EmphKind where
  | emphasis
  | strong
deriving DecidableEq

/-- One match of a closing delimiter run against an opener: the two run
lengths, the number of delimiters consumed from each side, and the node
kind produced. -/
structure MatchEvent where
  closerLen : Nat
  openerLen : Nat
  consumed : Nat
  kind : EmphKind
deriving DecidableEq

/-- The `consumeDelims` computation of `processEmphasis` (inline.go):
1 when both runs have length 3, else 2 when both have length ≥ 2,
else 1. -/
def consumeDelims (numDelims entryNum : Nat) : Nat :=
  if numDelims = 3 ∧ entryNum = 3 then 1
  else if 2 ≤ numDelims ∧ 2 ≤ entryNum then 2
  else 1

/-- `if consumeDelims == 1` an Emphasis node is made, else a
StrongEmphasis node. -/
def kindFor (k : Nat) : EmphKind :=
  if k = 1 then .emphasis else .strong

/-- Walk the stack from the top for the most recent opener with the same
character; returns it and the entries below it (the Go code truncates the
stack to that point). -/
def findOpener (c : Char) : List DelimEntry → Option (DelimEntry × List DelimEntry)
  | [] => none
  | e :: rest => if e.delimChar = c then some (e, rest) else findOpener c rest

/-- Length of the delimiter run starting at the current character. -/
def delimRunLen (c : Char) (rest0 : List Char) : Nat :=
  1 + (rest0.takeWhile (fun x => x == c)).length

/-- "See if this delimiter string can close emphasis": not preceded by
ASCII whitespace (start of node counts), and for `_` not followed by an
ASCII alphanumeric. -/
def canCloseOf (c : Char) (prev : Option Char) (rest : List Char) : Bool :=
  (match prev with | none => true | some p => !(isASCIISpace p))
    && (!(c == '_') || rest.isEmpty || !(isASCIIAlNum (rest.headD 'a')))

/-- "See if this delimiter string can open emphasis": not followed by
ASCII whitespace (end of node counts), and for `_` not preceded by an
ASCII alphanumeric. -/
def canOpenOf (c : Char) (prev : Option Char) (rest : List Char) : Bool :=
  (rest.isEmpty || !(isASCIISpace (rest.headD 'a')))
    && (!(c == '_') || (match prev with | none => true | some p => !(isASCIIAlNum p)))

/-- The delimiter scan of `processEmphasis` (inline.go) with explicit fuel
(each step consumes at least one character, so `text.length + 1`
suffices).  Returns the list of match events in scan order. -/
def emphScan : Nat → List DelimEntry → Option Char → List Char → List MatchEvent
  | 0, _, _, _ => []
  | _ + 1, _, _, [] => []
  | fuel + 1, stack, prev, c :: rest0 =>
      if c = '*' ∨ c = '_' then
        if 3 < delimRunLen c rest0 then
          emphScan fuel stack (some c) (rest0.drop (delimRunLen c rest0 - 1))
        else
          if canCloseOf c prev (rest0.drop (delimRunLen c rest0 - 1)) then
            match findOpener c stack with
            | some er =>
                ⟨delimRunLen c rest0, er.1.numDelims,
                  consumeDelims (delimRunLen c rest0) er.1.numDelims,
                  kindFor (consumeDelims (delimRunLen c rest0) er.1.numDelims)⟩
                  :: emphScan fuel
                      (if 0 < er.1.numDelims
                            - consumeDelims (delimRunLen c rest0) er.1.numDelims
                        then ⟨c, er.1.numDelims
                            - consumeDelims (delimRunLen c rest0) er.1.numDelims⟩ :: er.2
                        else er.2)
                      none
                      (List.replicate
                          (delimRunLen c rest0
                            - consumeDelims (delimRunLen c rest0) er.1.numDelims) c
                        ++ rest0.drop (delimRunLen c rest0 - 1))
            | none =>
                emphScan fuel
                  (if canOpenOf c prev (rest0.drop (delimRunLen c rest0 - 1))
                    then ⟨c, delimRunLen c rest0⟩ :: stack else stack)
                  (some c) (rest0.drop (delimRunLen c rest0 - 1))
          else
            emphScan fuel
              (if canOpenOf c prev (rest0.drop (delimRunLen c rest0 - 1))
                then ⟨c, delimRunLen c rest0⟩ :: stack else stack)
              (some c) (rest0.drop (delimRunLen c rest0 - 1))
      else emphScan fuel stack (some c) rest0

/-- The scan over one text node, with the empty delimiter stack. -/
def processEmphasisScan (text : List Char) : List MatchEvent :=
  emphScan (text.length + 1) [] none text

/-- The per-event property the claim describes. -/
def eventOk (ev : MatchEvent) : Prop :=
  ev.closerLen ≤ 3 ∧ ev.openerLen ≤ 3 ∧
  ev.consumed = consumeDelims ev.closerLen ev.openerLen ∧
  (ev.closerLen = 3 ∧ ev.openerLen = 3 →
    ev.consumed = 1 ∧ ev.kind = .emphasis) ∧
  (2 ≤ ev.closerLen ∧ 2 ≤ ev.openerLen ∧ ¬(ev.closerLen = 3 ∧ ev.openerLen = 3) →
    ev.consumed = 2 ∧ ev.kind = .strong) ∧
  ((ev.closerLen < 2 ∨ ev.openerLen < 2) →
    ev.consumed = 1 ∧ ev.kind = .emphasis)

/-! ## The public entry point `ToHTMLBytes` (commonmark.go)

The cited revision of commonmark.go is self-contained: `parseBlocks`
(lines 47–76) collects every line into a single paragraph,
`processInlines`/`parseInlines`/`parseInline` (78–125) split it into
string inlines and soft line breaks, and `blockToHTML`/`inlineToHTML`
(unnamed/part_009) render document and paragraph nodes.  The only error
source is `scanner.Err()` of the (spec-modelled) `newScanner`. -/

/-- `parseBlocks` of commonmark.go lines 47–76: every scanned line is
appended (with leading spaces stripped, `paragraph.AppendLine`) to one
paragraph child of the document; no lines, no paragraph. -/
def cmParagraph (lines : List (List Char)) : Option (List Char) :=
  match lines with
  | [] => none
  | _ => some (lines.foldl (fun acc l => acc ++ trimLeftSpaces l) [])

/-- The `Inline` variants of this revision (unnamed/part_002): string
inlines, soft and hard line breaks, code spans; `multipleInline` is the
list structure. -/
inductive CMInline where
  | strIn (content : List Char)
  | softBreak
  | hardBreak
  | codeSp (content : List Char)

/-- `unicode.IsSpace` for the runes Go recognizes as white space. -/
def isUnicodeSpace (c : Char) : Bool :=
  c == ' ' || c == '\t' || c == '\n' || c == '\x0b' || c == '\x0c' || c == '\r'
    || c == '\x85' || c == '\xa0' || c == ' '
    || (decide (' ' ≤ c) && decide (c ≤ ' '))
    || c == ' ' || c == ' ' || c == ' ' || c == ' '
    || c == '　'

/-- `bytes.TrimRightFunc(data, unicode.IsSpace)`. -/
def trimRightUnicode (l : List Char) : List Char :=
  (l.reverse.dropWhile isUnicodeSpace).reverse

/-- The loop of `parseInlines` with `parseInline` (commonmark.go 93–125),
with explicit fuel (every step consumes at least one byte): a `'\n'`
yields a soft line break and skips the next line's leading spaces;
otherwise the text up to the next `'\n'`, with trailing spaces removed,
becomes a string inline. -/
def parseInlinesCMGo : Nat → List Char → List CMInline
  | 0, _ => []
  | _ + 1, [] => []
  | fuel + 1, c :: rest =>
      if c = '\n' then
        .softBreak :: parseInlinesCMGo fuel (rest.dropWhile (fun x => x == ' '))
      else
        .strIn (trimRightSpaces ((c :: rest).take
            (((c :: rest).findIdx? (fun x => x = '\n')).getD (c :: rest).length)))
          :: parseInlinesCMGo fuel ((c :: rest).drop
            (((c :: rest).findIdx? (fun x => x = '\n')).getD (c :: rest).length))

/-- `parseInlines` (commonmark.go 93–105): right-trim unicode whitespace,
then scan. -/
def parseInlinesCM (data0 : List Char) : List CMInline :=
  parseInlinesCMGo ((trimRightUnicode data0).length + 1) (trimRightUnicode data0)

/-- `inlineToHTML` of unnamed/part_009: string inlines pass through
verbatim (`out.Write`), a soft break is a newline, a hard break `<br />`,
a code span is wrapped in `<code>`. -/
def inlineToHTML0 : CMInline → List Char
  | .strIn s => s
  | .softBreak => ['\n']
  | .hardBreak => "<br />\n".toList
  | .codeSp s => "<code>".toList ++ s ++ "</code>".toList

/-- `blockToHTML` of unnamed/part_009 on the document produced by this
revision's `parseBlocks`: the document renders its children; the single
paragraph (if any) renders `<p>`, its inline content, `</p>\n`. -/
def blockToHTML0 (par : Option (List CMInline)) : List Char :=
  match par with
  | none => []
  | some inls => "<p>".toList ++ (inls.map inlineToHTML0).flatten ++ "</p>\n".toList

/-- `ToHTMLBytes` (commonmark.go 21–30): parse both phases, render, and
propagate the scanner's error, which for an in-memory input never
occurs. -/
def toHTMLBytes (data : List Char) : Except String (List Char) :=
  match scannerErr data with
  | some e => .error e
  | none =>
      .ok (blockToHTML0 ((cmParagraph (processedLines data)).map parseInlinesCM))

/-! ## Theorems -/

theorem scanLinesSplit_advance_pos (data : List Char) (h : data ≠ []) :
    1 ≤ (scanLinesSplit data).1 := by
  unfold scanLinesSplit
  cases hf : data.findIdx? (fun c => c = '\r' || c = '\n') with
  | none =>
      simpa using List.length_pos.mpr h
  | some i =>
      dsimp only
      split <;> omega

theorem tabsToSpacesAux_cons_ne (col : Nat) (c : Char) (rest : List Char)
    (hc : ¬ c = '\t') :
    tabsToSpacesAux col (c :: rest) = c :: tabsToSpacesAux (col + 1) rest := by
  simp [tabsToSpacesAux, hc]

theorem tabsToSpacesAux_cons_tab (col : Nat) (rest : List Char) :
    tabsToSpacesAux col ('\t' :: rest)
      = List.replicate (4 - col % 4) ' '
          ++ tabsToSpacesAux (col + (4 - col % 4)) rest := by
  simp [tabsToSpacesAux]

theorem tabsToSpacesAux_no_tab (col : Nat) (l : List Char)
    (h : l.contains '\t' = false) : tabsToSpacesAux col l = l := by
  induction l generalizing col with
  | nil => rfl
  | cons c rest ih =>
      simp only [List.contains_cons, Bool.or_eq_false_iff,
        beq_eq_false_iff_ne] at h
      rw [tabsToSpacesAux_cons_ne _ _ _ (Ne.symm h.1)]
      rw [ih _ (by simpa using h.2)]

theorem tabsToSpacesAux_spaces (col k : Nat) (rest : List Char) :
    tabsToSpacesAux col (List.replicate k ' ' ++ rest)
      = List.replicate k ' ' ++ tabsToSpacesAux (col + k) rest := by
  induction k generalizing col with
  | zero => simp
  | succ n ih =>
      rw [List.replicate_succ, List.cons_append,
        tabsToSpacesAux_cons_ne _ _ _ (by decide), ih (col + 1)]
      have : col + 1 + n = col + (n + 1) := by omega
      simp [List.cons_append, this]

theorem tabsToSpaces_no_tab (line : List Char)
    (h : line.contains '\t' = false) : tabsToSpaces line = line := by
  unfold tabsToSpaces
  rw [h]
  simp

theorem tabsToSpacesAux_first_tab (pre rest : List Char) (col : Nat)
    (h : pre.contains '\t' = false) :
    tabsToSpacesAux col (pre ++ '\t' :: rest)
      = pre ++ List.replicate (4 - (col + pre.length) % 4) ' '
          ++ tabsToSpacesAux (col + pre.length + (4 - (col + pre.length) % 4)) rest := by
  induction pre generalizing col with
  | nil => simp [tabsToSpacesAux_cons_tab]
  | cons c pre ih =>
      simp only [List.contains_cons, Bool.or_eq_false_iff,
        beq_eq_false_iff_ne] at h
      rw [List.cons_append, tabsToSpacesAux_cons_ne _ _ _ (Ne.symm h.1),
        ih _ (by simpa using h.2)]
      simp only [List.length_cons, List.cons_append]
      have : col + 1 + pre.length = col + (pre.length + 1) := by omega
      rw [this]

theorem tabsToSpaces_eq_aux (line : List Char) :
    tabsToSpaces line = tabsToSpacesAux 0 line := by
  unfold tabsToSpaces
  by_cases h : line.contains '\t' = true
  · rw [h]
    simp
  · have h' : line.contains '\t' = false := by simpa using h
    rw [h', tabsToSpacesAux_no_tab 0 line h']
    simp

/-- C7, counterexample: on `"a\tb\tc"` the code expands the second tab using
the column reached in the *expanded* output (column 5, so 3 spaces), while
the claim's byte-offset rule (offset 3, so 1 space) gives a different
result. -/
theorem C7_counterexample :
    tabsToSpaces ['a', '\t', 'b', '\t', 'c']
        = ['a', ' ', ' ', ' ', 'b', ' ', ' ', ' ', 'c'] ∧
    byteOffsetTabsToSpaces 0 ['a', '\t', 'b', '\t', 'c']
        = ['a', ' ', ' ', ' ', 'b', ' ', 'c'] ∧
    tabsToSpaces ['a', '\t', 'b', '\t', 'c']
        ≠ byteOffsetTabsToSpaces 0 ['a', '\t', 'b', '\t', 'c'] := by
  refine ⟨by decide, by decide, by decide⟩

/-- C7 (amended): `tabsToSpaces` replaces each tab with `4 - (column mod 4)`
spaces where the column counts runes already emitted in the *expanded*
output (a previous tab counts as the spaces it produced), leaves other runes
unchanged and in order (a tab-free line is returned unchanged, and on the
first tab the column is the rune offset of the prefix), and replacing a
leading tab with four spaces yields the same converted output. -/
theorem C7_theorem (pre rest tail line : List Char)
    (hpre : pre.contains '\t' = false) (hline : line.contains '\t' = false) :
    tabsToSpaces ('\t' :: tail) = tabsToSpaces (List.replicate 4 ' ' ++ tail) ∧
    tabsToSpaces line = line ∧
    tabsToSpaces (pre ++ '\t' :: rest)
      = pre ++ List.replicate (4 - pre.length % 4) ' '
          ++ tabsToSpacesAux (pre.length + (4 - pre.length % 4)) rest := by
  refine ⟨?_, tabsToSpaces_no_tab line hline, ?_⟩
  · rw [tabsToSpaces_eq_aux, tabsToSpaces_eq_aux, tabsToSpacesAux_cons_tab,
      tabsToSpacesAux_spaces]
  · rw [tabsToSpaces_eq_aux, tabsToSpacesAux_first_tab pre rest 0 hpre]
    norm_num

theorem contains_eq_false_of_not_mem {l : List Char} {a : Char}
    (h : a ∉ l) : l.contains a = false := by
  rw [Bool.eq_false_iff]
  intro hc
  exact h (List.elem_iff.mp hc)

theorem not_mem_of_contains_eq_false {l : List Char} {a : Char}
    (h : l.contains a = false) : a ∉ l := by
  intro hm
  have hc : l.contains a = true := List.elem_iff.mpr hm
  rw [hc] at h
  cases h

/-- The token produced by one `scanLines` split contains neither CR nor
LF: the split cuts at the first such byte. -/
theorem scanLinesSplit_token_clean (data : List Char) :
    '\r' ∉ (scanLinesSplit data).2 ∧ '\n' ∉ (scanLinesSplit data).2 := by
  unfold scanLinesSplit
  cases hf : data.findIdx? (fun c => c = '\r' || c = '\n') with
  | none =>
      have hall := List.findIdx?_eq_none_iff.mp hf
      constructor <;>
        · intro hm
          have := hall _ hm
          simp at this
  | some i =>
      have hsome := List.findIdx?_eq_some_iff_getElem.mp hf
      obtain ⟨hi, _, hbefore⟩ := hsome
      have htake : ∀ a ∈ data.take i, ¬(a = '\r' ∨ a = '\n') := by
        intro a ha hor
        obtain ⟨j, hj, hja⟩ := List.mem_take_iff_getElem.mp ha
        have hji : j < i := lt_of_lt_of_le hj inf_le_left
        have := hbefore j hji
        rw [hja] at this
        simp only [Bool.or_eq_true, decide_eq_true_eq] at this
        exact this hor
      have hgoal : '\r' ∉ data.take i ∧ '\n' ∉ data.take i := by
        constructor
        · intro hm
          exact htake _ hm (Or.inl rfl)
        · intro hm
          exact htake _ hm (Or.inr rfl)
      dsimp only
      split <;> exact hgoal

theorem scanAllAux_token_clean (fuel : Nat) (data : List Char) :
    ∀ t ∈ scanAllAux fuel data, '\r' ∉ t ∧ '\n' ∉ t := by
  induction fuel generalizing data with
  | zero =>
      intro t ht
      cases data with
      | nil =>
          have heq : scanAllAux 0 ([] : List Char) = [] := rfl
          rw [heq] at ht
          cases ht
      | cons c rest =>
          have heq : scanAllAux 0 (c :: rest) = [] := rfl
          rw [heq] at ht
          cases ht
  | succ n ih =>
      intro t ht
      cases data with
      | nil =>
          have heq : scanAllAux (n + 1) ([] : List Char) = [] := rfl
          rw [heq] at ht
          cases ht
      | cons c rest =>
          have heq : scanAllAux (n + 1) (c :: rest)
              = (scanLinesSplit (c :: rest)).2
                  :: scanAllAux n ((c :: rest).drop (scanLinesSplit (c :: rest)).1) := rfl
          rw [heq] at ht
          rcases List.mem_cons.mp ht with h1 | h2
          · subst h1
            exact scanLinesSplit_token_clean _
          · exact ih _ _ h2

/-- Tab expansion only turns tabs into spaces: every output rune is a space
or appeared in the input. -/
theorem tabsToSpacesAux_mem (col : Nat) (l : List Char) :
    ∀ x ∈ tabsToSpacesAux col l, x = ' ' ∨ x ∈ l := by
  induction l generalizing col with
  | nil => intro x hx; cases hx
  | cons c rest ih =>
      intro x hx
      by_cases hc : c = '\t'
      · subst hc
        rw [tabsToSpacesAux_cons_tab] at hx
        rcases List.mem_append.mp hx with h1 | h2
        · exact Or.inl (List.eq_of_mem_replicate h1)
        · rcases ih _ _ h2 with h | h
          · exact Or.inl h
          · exact Or.inr (List.mem_cons_of_mem _ h)
      · rw [tabsToSpacesAux_cons_ne _ _ _ hc] at hx
        rcases List.mem_cons.mp hx with h1 | h2
        · exact Or.inr (h1 ▸ List.mem_cons_self _ _)
        · rcases ih _ _ h2 with h | h
          · exact Or.inl h
          · exact Or.inr (List.mem_cons_of_mem _ h)

theorem tabsToSpaces_mem (l : List Char) :
    ∀ x ∈ tabsToSpaces l, x = ' ' ∨ x ∈ l := by
  rw [tabsToSpaces_eq_aux]
  exact tabsToSpacesAux_mem 0 l

/-- C8: every line handed to the block analyzer after preprocessing is
non-empty, ends with a single `'\n'`, contains no carriage return and no
other newline, and therefore the failure branch of `indentation()` (all
characters are spaces) is unreachable on it. -/
theorem C8_theorem (data line : List Char) (h : line ∈ processedLines data) :
    line ≠ [] ∧ line.getLast? = some '\n' ∧ line.count '\n' = 1 ∧
      line.contains '\r' = false ∧ (indentationOpt line).isSome = true := by
  obtain ⟨t, ht, rfl⟩ := List.mem_map.mp h
  obtain ⟨hcr, hlf⟩ := scanAllAux_token_clean _ _ t ht
  have hcr' : '\r' ∉ tabsToSpaces t := by
    intro hm
    rcases tabsToSpaces_mem t _ hm with h1 | h1
    · cases h1
    · exact hcr h1
  have hlf' : '\n' ∉ tabsToSpaces t := by
    intro hm
    rcases tabsToSpaces_mem t _ hm with h1 | h1
    · cases h1
    · exact hlf h1
  refine ⟨by simp, List.getLast?_concat _, ?_, ?_, ?_⟩
  · rw [List.count_append]
    rw [List.count_eq_zero.mpr hlf']
    rfl
  · apply contains_eq_false_of_not_mem
    intro hm
    rcases List.mem_append.mp hm with h1 | h1
    · exact hcr' h1
    · simp at h1
  · rw [Option.isSome_iff_ne_none]
    intro hnone
    have hall := List.findIdx?_eq_none_iff.mp hnone
    have hmem : '\n' ∈ tabsToSpaces t ++ ['\n'] := by simp
    have := hall _ hmem
    simp at this

/-- C8 witness: the theorem applied to the concrete input `"a\nb"`, whose
first processed line is `"a\n"`. -/
theorem C8_theorem_witness :
    ['a', '\n'] ≠ ([] : List Char) ∧
      (['a', '\n'] : List Char).getLast? = some '\n' ∧
      (['a', '\n'] : List Char).count '\n' = 1 ∧
      (['a', '\n'] : List Char).contains '\r' = false ∧
      (indentationOpt ['a', '\n']).isSome = true :=
  C8_theorem ['a', '\n', 'b'] ['a', '\n'] (by decide)

/-- C7 witness: the amended theorem applied at concrete inputs. -/
theorem C7_theorem_witness :
    tabsToSpaces ('\t' :: ['x']) = tabsToSpaces (List.replicate 4 ' ' ++ ['x']) ∧
    tabsToSpaces ['y'] = ['y'] ∧
    tabsToSpaces (['a'] ++ '\t' :: ['b'])
      = ['a'] ++ List.replicate (4 - (['a'] : List Char).length % 4) ' '
          ++ tabsToSpacesAux
              ((['a'] : List Char).length + (4 - (['a'] : List Char).length % 4)) ['b'] :=
  C7_theorem ['a'] ['b'] ['x'] ['y'] (by decide) (by decide)

theorem indentationOpt_cons_space (rest : List Char) :
    indentationOpt (' ' :: rest) = (indentationOpt rest).map (· + 1) := by
  simp [indentationOpt, List.findIdx?_cons]

theorem indentationOpt_cons_ne (c : Char) (rest : List Char) (h : ¬ c = ' ') :
    indentationOpt (c :: rest) = some 0 := by
  simp [indentationOpt, List.findIdx?_cons, h]

theorem indentationOpt_replicate (k : Nat) (c : Char) (rest : List Char)
    (hc : ¬ c = ' ') :
    indentationOpt (List.replicate k ' ' ++ c :: rest) = some k := by
  induction k with
  | zero => simpa using indentationOpt_cons_ne c rest hc
  | succ n ih =>
      rw [List.replicate_succ, List.cons_append, indentationOpt_cons_space, ih]
      rfl

theorem getD_of_drop_eq_cons (line : List Char) (i : Nat) (c : Char)
    (t : List Char) (h : line.drop i = c :: t) : line.getD i ' ' = c := by
  have h0 : getElem? line i = some c := by
    have h1 := List.getElem?_drop line i 0
    rw [h] at h1
    simpa using h1.symm
  simp [List.getD_eq_getElem?_getD, h0]

theorem drop_replicate_marker (k : Nat) (c : Char) (rest : List Char) :
    (List.replicate k ' ' ++ c :: rest).drop (k + 1) = rest := by
  have h1 : (List.replicate k ' ' ++ c :: rest).drop k = c :: rest := by
    have := List.drop_left (List.replicate k ' ') (c :: rest)
    rwa [List.length_replicate] at this
  rw [← List.drop_drop, h1]
  rfl

/-- C1, counterexample: the non-blank line `"x\n"` has no `>` marker, so by
the claim it would not continue an open BlockQuote; the code continues the
BlockQuote (lazy continuation) and leaves the line unchanged. -/
theorem C1_counterexample :
    matchBlock .blockQuote ['x', '\n'] = some ['x', '\n'] ∧
      blockQuoteClaimMatch ['x', '\n'] = false := by
  constructor <;> rfl

/-- C1 (amended): an open BlockQuote is continued by `L` iff `L` is not
blank (both directions, unconditionally: a blank line never matches, any
non-blank line does) — the `>` marker is not required and its indentation
is not limited to 3.  When the first non-space character is `>` (at any
indentation), one blockquote marker is stripped: the leading spaces, the
`>`, and one optional following space; otherwise the line is left
unchanged. -/
theorem C1_theorem (line rest : List Char) (k : Nat)
    (hnb : blankAt line = false)
    (hng : ¬ line.getD (indentation line) ' ' = '>') :
    (∀ l : List Char, (matchBlock .blockQuote l).isSome = !(blankAt l)) ∧
    (∀ l : List Char, blankAt l = true → matchBlock .blockQuote l = none) ∧
    matchBlock .blockQuote line = some line ∧
    stripBlockQuoteMarker (List.replicate k ' ' ++ '>' :: rest)
      = (if rest.head? == some ' ' then rest.tail else rest) ∧
    matchBlock .blockQuote (List.replicate k ' ' ++ '>' :: rest)
      = some (if rest.head? == some ' ' then rest.tail else rest) := by
  have hind : indentation (List.replicate k ' ' ++ '>' :: rest) = k := by
    unfold indentation
    rw [indentationOpt_replicate k '>' rest (by decide)]
    rfl
  have hgd : (List.replicate k ' ' ++ '>' :: rest).getD k ' ' = '>' := by
    apply getD_of_drop_eq_cons _ _ _ rest
    have := List.drop_left (List.replicate k ' ') ('>' :: rest)
    rwa [List.length_replicate] at this
  have hstrip : stripBlockQuoteMarker (List.replicate k ' ' ++ '>' :: rest)
      = (if rest.head? == some ' ' then rest.tail else rest) := by
    unfold stripBlockQuoteMarker
    rw [hind, drop_replicate_marker]
  have hblank : ∀ l : List Char, blankAt l = true → matchBlock .blockQuote l = none := by
    intro l hb
    simp only [matchBlock, hb]
    simp
  refine ⟨?_, hblank, ?_, hstrip, ?_⟩
  · intro l
    by_cases hb : blankAt l = true
    · rw [hblank l hb, hb]
      rfl
    · have hb' : blankAt l = false := by simpa using hb
      simp only [matchBlock, hb', Bool.not_false]
      rw [if_neg (by decide : ¬ (false = true))]
      split <;> rfl
  · have hnb' : ¬ (blankAt line = true) := by simp [hnb]
    have hng' : ¬ ((line.getD (indentation line) ' ' == '>') = true) := by
      simpa using hng
    simp only [matchBlock]
    rw [if_neg hnb', if_neg hng']
  · simp only [matchBlock, blankAt, hind, hgd]
    rw [if_neg (by decide), if_pos (by decide), hstrip]

/-- C1 witness: the amended theorem applied at `line = "x\n"`,
`"  > y\n" = replicate 2 ' ' ++ '>' :: " y\n"`; the universally quantified
continuation-iff conjuncts are kept as stated. -/
theorem C1_theorem_witness :
    (∀ l : List Char, (matchBlock .blockQuote l).isSome = !(blankAt l)) ∧
    (∀ l : List Char, blankAt l = true → matchBlock .blockQuote l = none) ∧
    matchBlock .blockQuote ['x', '\n'] = some ['x', '\n'] ∧
    stripBlockQuoteMarker (List.replicate 2 ' ' ++ '>' :: [' ', 'y', '\n'])
      = (if ([' ', 'y', '\n'] : List Char).head? == some ' '
          then ([' ', 'y', '\n'] : List Char).tail else [' ', 'y', '\n']) ∧
    matchBlock .blockQuote (List.replicate 2 ' ' ++ '>' :: [' ', 'y', '\n'])
      = some (if ([' ', 'y', '\n'] : List Char).head? == some ' '
          then ([' ', 'y', '\n'] : List Char).tail else [' ', 'y', '\n']) :=
  C1_theorem ['x', '\n'] [' ', 'y', '\n'] 2 (by decide) (by decide)

theorem indentationOpt_of_drop (line : List Char) (c : Char) (t : List Char)
    (hd : line.drop ((line.takeWhile (fun x => x == ' ')).length) = c :: t)
    (_hc : ¬ c = ' ') :
    indentationOpt line = some ((line.takeWhile (fun x => x == ' ')).length) := by
  induction line with
  | nil => simp at hd
  | cons a rest ih =>
      by_cases ha : a = ' '
      · subst ha
        rw [List.takeWhile_cons, if_pos (by decide)] at hd ⊢
        simp only [List.length_cons, List.drop_succ_cons] at hd
        rw [indentationOpt_cons_space, ih hd]
        rfl
      · rw [List.takeWhile_cons, if_neg (by simpa using ha)] at hd ⊢
        simp only [List.length_nil, List.drop_zero] at hd
        rw [indentationOpt_cons_ne a rest ha]
        rfl

/-- Structure of a line accepted by `parseSetextUnderline`: at most three
leading spaces, then a `=` or `-` at the first non-space position. -/
theorem setext_shape (line : List Char) (lvl : Nat)
    (h : parseSetextUnderline line = some lvl) :
    ∃ c t, (c = '=' ∨ c = '-') ∧
      (line.takeWhile (fun x => x == ' ')).length ≤ 3 ∧
      line.drop ((line.takeWhile (fun x => x == ' ')).length) = c :: t := by
  unfold parseSetextUnderline at h
  by_cases h3 : 3 < (line.takeWhile (fun x => x == ' ')).length
  · rw [if_pos h3] at h
    cases h
  · rw [if_neg h3] at h
    split at h
    · cases h
    · rename_i c t hd
      refine ⟨c, t, ?_, by omega, hd⟩
      by_cases hce : (c == '=' || c == '-') = true
      · rcases Bool.or_eq_true_iff.mp hce with h1 | h1
        · exact Or.inl (by simpa using h1)
        · exact Or.inr (by simpa using h1)
      · rw [if_neg hce] at h
        cases h

/-- Facts needed to steer Phase 2 to the setext branch. -/
theorem setext_consequences (line : List Char) (lvl : Nat)
    (h : parseSetextUnderline line = some lvl) :
    ¬ line.getD (indentation line) ' ' = '>' ∧ parseATXHeader line = none := by
  obtain ⟨c, t, hc, h3, hd⟩ := setext_shape line lvl h
  have hcs : ¬ c = ' ' := by
    rcases hc with h1 | h1 <;> subst h1 <;> decide
  have hopt := indentationOpt_of_drop line c t hd hcs
  have hindent : indentation line = (line.takeWhile (fun x => x == ' ')).length := by
    unfold indentation
    rw [hopt]
    rfl
  have hgd : line.getD (indentation line) ' ' = c := by
    rw [hindent]
    exact getD_of_drop_eq_cons line _ c t hd
  constructor
  · rw [hgd]
    rcases hc with h1 | h1 <;> subst h1 <;> decide
  · have hch : ¬ c = '#' := by
      rcases hc with h1 | h1 <;> subst h1 <;> decide
    simp only [parseATXHeader]
    rw [hindent]
    rw [if_neg (by omega)]
    rw [hd]
    simp [List.findIdx?_cons, hch]

/-- C4: in Phase 2, when the top open block is a Paragraph whose content is
exactly one line and the line matches `^ {0,3}(=+|-+) *\n$`, the paragraph
is replaced by a heading of level 1 (`=`) or 2 (`-`) carrying the
paragraph's raw bytes, the heading is closed immediately (materialized into
the parent), and the line is consumed without being appended anywhere. -/
theorem C4_theorem (rest : List OpenBlock) (content line : List Char)
    (ch : List BTree) (lvl : Nat)
    (hset : parseSetextUnderline line = some lvl)
    (hone : hasOneLine content = true) :
    phase2 (⟨.paragraph, content, ch⟩ :: rest) line
      = (closeLastBlock (⟨.atxHeader lvl, content, []⟩ :: rest), none) := by
  obtain ⟨hng, hatx⟩ := setext_consequences line lvl hset
  have hng' : (line.getD (indentation line) ' ' == '>') = false := by
    simpa using hng
  unfold phase2
  rw [phase2Aux]
  simp [List.headD_cons, hatx, hset, hng', hone, acceptsLiteralLines,
    replaceOpen]
  intro hcontra
  apply absurd _ hng
  rw [List.getD_eq_getElem?_getD]
  exact hcontra

/-- C4 witness: the theorem applied with top paragraph `"Title\n"`, line
`" === \n"`, above a document root. -/
theorem C4_theorem_witness :
    phase2 [⟨.paragraph, ['T', '\n'], []⟩, ⟨.document, [], []⟩] [' ', '=', '=', ' ', '\n']
      = (closeLastBlock
          [⟨.atxHeader 1, ['T', '\n'], []⟩, ⟨.document, [], []⟩], none) :=
  C4_theorem [⟨.document, [], []⟩] ['T', '\n'] [' ', '=', '=', ' ', '\n'] [] 1
    (by decide) (by decide)

/-- C3, counterexample: on `"# foo\n"` no closing `#` run is stripped and
the code keeps the terminating newline in the raw content (`"foo\n"`),
while the claim's content (the remainder stripped of closing run and
spaces) is `"foo"`. -/
theorem C3_counterexample :
    parseATXHeader ['#', ' ', 'f', 'o', 'o', '\n'] = some (1, ['f', 'o', 'o', '\n']) ∧
    claimATXHeader ['#', ' ', 'f', 'o', 'o', '\n'] = some (1, ['f', 'o', 'o']) ∧
    parseATXHeader ['#', ' ', 'f', 'o', 'o', '\n']
      ≠ claimATXHeader ['#', ' ', 'f', 'o', 'o', '\n'] := by
  refine ⟨by decide, by decide, by decide⟩

theorem findIdx?_replicate (p : Char → Bool) (k : Nat) (b c : Char)
    (rest : List Char) (hb : p b = false) (hc : p c = true) :
    List.findIdx? p (List.replicate k b ++ c :: rest) = some k := by
  induction k with
  | zero => simp [List.findIdx?_cons, hc]
  | succ n ih =>
      rw [List.replicate_succ, List.cons_append]
      simp [List.findIdx?_cons, hb, ih]

theorem drop_replicate (k : Nat) (b : Char) (x : List Char) :
    (List.replicate k b ++ x).drop k = x := by
  have := List.drop_left (List.replicate k b) x
  rwa [List.length_replicate] at this

theorem trimRightSpaces_append_space (l : List Char) :
    trimRightSpaces (l ++ [' ']) = trimRightSpaces l := by
  simp [trimRightSpaces, List.reverse_append, List.dropWhile_cons]

theorem trimSpaces_append_space (l : List Char) :
    trimSpaces (l ++ [' ']) = trimSpaces l := by
  unfold trimSpaces
  rw [trimRightSpaces_append_space]

theorem dropWhile_replicate_append (p : Char → Bool) (n : Nat) (b : Char)
    (x : List Char) (hb : p b = true) :
    List.dropWhile p (List.replicate n b ++ x) = List.dropWhile p x := by
  induction n with
  | zero => simp
  | succ i ih =>
      rw [List.replicate_succ, List.cons_append, List.dropWhile_cons,
        if_pos hb, ih]

theorem dropWhile_cons_neg (p : Char → Bool) (x : Char) (xs : List Char)
    (h : p x = false) : List.dropWhile p (x :: xs) = x :: xs := by
  rw [List.dropWhile_cons, h]
  simp

theorem take_pred_append_singleton (y : List Char) (z : Char) :
    (y ++ [z]).take ((y ++ [z]).length - 1) = y := by
  have hlen : (y ++ [z]).length - 1 = y.length := by simp
  rw [hlen]
  exact List.take_left y [z]

/-- `parseATXHeader` on a line decomposed into its indentation, opening
`#` run (maximal: the next character is not `#`), and remainder. -/
theorem parseATXHeader_structured (a k : Nat) (rest : List Char) (c0 : Char)
    (ha : a ≤ 3) (hk1 : 1 ≤ k)
    (hrest : rest.head? = some c0) (hc0 : ¬ c0 = '#') :
    parseATXHeader (List.replicate a ' ' ++ List.replicate k '#' ++ rest)
      = if k ≤ 6 then
          (if c0 == ' ' || c0 == '\n' then some (k, atxRawContent rest) else none)
        else none := by
  have hrc : rest = c0 :: rest.tail := by
    cases rest with
    | nil => cases hrest
    | cons x xs =>
        rw [List.head?_cons] at hrest
        cases hrest
        rfl
  obtain ⟨k2, rfl⟩ : ∃ k2, k = k2 + 1 := ⟨k - 1, by omega⟩
  have hshape : List.replicate a ' ' ++ List.replicate (k2 + 1) '#' ++ rest
      = List.replicate a ' ' ++ '#' :: (List.replicate k2 '#' ++ rest) := by
    simp [List.replicate_succ]
  have hopt : indentationOpt (List.replicate a ' ' ++ List.replicate (k2 + 1) '#' ++ rest)
      = some a := by
    rw [hshape]
    exact indentationOpt_replicate a '#' _ (by decide)
  have hind : indentation (List.replicate a ' ' ++ List.replicate (k2 + 1) '#' ++ rest)
      = a := by
    unfold indentation
    rw [hopt]
    rfl
  have hdrop : (List.replicate a ' ' ++ List.replicate (k2 + 1) '#' ++ rest).drop a
      = List.replicate (k2 + 1) '#' ++ rest := by
    rw [List.append_assoc]
    exact drop_replicate a ' ' _
  simp only [parseATXHeader]
  rw [hind, if_neg (by omega), hdrop, hrc]
  rw [findIdx?_replicate _ (k2 + 1) '#' c0 rest.tail (by simp) (by simpa using hc0)]
  simp only [Option.getD_some]
  rw [drop_replicate]
  by_cases h6 : k2 + 1 ≤ 6
  · rw [if_neg (by simp; omega), if_pos h6]
    rw [← hrc]
    rw [hrc, List.head?_cons]
  · rw [if_pos (by simp; omega), if_neg h6]

/-- C3 (amended): `parseATXHeader` accepts a line with indentation at most
3 and an opening run of 1–6 `#` followed by a space or the terminating
newline, returning the `#` count as level (deeper indentation, a run of
more than 6 `#`, a missing run, or another following character give
`none`); the raw content is the remainder stripped of an optional closing
run of one or more `#` — preceded by a space and taken together with its
trailing spaces *and the terminating newline* — and of leading and
trailing spaces; when no closing run is stripped, the terminating newline
stays in the raw content. -/
theorem C3_theorem (a k j m a2 : Nat) (rest mid mid2 nrun z : List Char)
    (c0 d0 : Char)
    (ha : a ≤ 3) (hk1 : 1 ≤ k)
    (hrest : rest.head? = some c0) (hc0 : ¬ c0 = '#')
    (hbig : 3 < indentation nrun)
    (ha2 : a2 ≤ 3) (hd0 : ¬ d0 = '#') (hd0s : ¬ d0 = ' ')
    (hj : 1 ≤ j)
    (hnc : ((mid2.reverse.dropWhile (fun c => c == ' ')).dropWhile
              (fun c => c == '#')).head? ≠ some ' ') :
    parseATXHeader (List.replicate a ' ' ++ List.replicate k '#' ++ rest)
      = (if k ≤ 6 then
          (if c0 == ' ' || c0 == '\n' then some (k, atxRawContent rest) else none)
         else none) ∧
    parseATXHeader nrun = none ∧
    parseATXHeader (List.replicate a2 ' ' ++ d0 :: z) = none ∧
    atxRawContent
        (mid ++ ' ' :: (List.replicate j '#' ++ List.replicate m ' ' ++ ['\n']))
      = trimSpaces mid ∧
    atxRawContent (mid2 ++ ['\n']) = trimSpaces (mid2 ++ ['\n']) := by
  refine ⟨parseATXHeader_structured a k rest c0 ha hk1 hrest hc0, ?_, ?_, ?_, ?_⟩
  · simp only [parseATXHeader]
    rw [if_pos hbig]
  · have hopt : indentationOpt (List.replicate a2 ' ' ++ d0 :: z) = some a2 :=
      indentationOpt_replicate a2 d0 z hd0s
    have hind : indentation (List.replicate a2 ' ' ++ d0 :: z) = a2 := by
      unfold indentation
      rw [hopt]
      rfl
    simp only [parseATXHeader]
    rw [hind, if_neg (by omega), drop_replicate]
    simp [List.findIdx?_cons, hd0]
  · have hassoc : mid ++ ' ' :: (List.replicate j '#' ++ List.replicate m ' ' ++ ['\n'])
        = (mid ++ ' ' :: (List.replicate j '#' ++ List.replicate m ' ')) ++ ['\n'] := by
      simp
    have hbody : (mid ++ ' ' :: (List.replicate j '#' ++ List.replicate m ' ' ++ ['\n'])).take
          ((mid ++ ' ' :: (List.replicate j '#' ++ List.replicate m ' ' ++ ['\n'])).length - 1)
        = mid ++ ' ' :: (List.replicate j '#' ++ List.replicate m ' ') := by
      rw [hassoc]
      exact take_pred_append_singleton _ _
    obtain ⟨j2, rfl⟩ : ∃ j2, j = j2 + 1 := ⟨j - 1, by omega⟩
    have hrev : (mid ++ ' ' :: (List.replicate (j2 + 1) '#' ++ List.replicate m ' ')).reverse
        = List.replicate m ' ' ++ (List.replicate (j2 + 1) '#' ++ (' ' :: mid.reverse)) := by
      simp [List.reverse_append, List.reverse_replicate, List.append_assoc]
    have hstep1 : List.dropWhile (fun c => c == ' ')
        (List.replicate (j2 + 1) '#' ++ (' ' :: mid.reverse))
        = List.replicate (j2 + 1) '#' ++ (' ' :: mid.reverse) := by
      rw [List.replicate_succ, List.cons_append,
        dropWhile_cons_neg _ _ _ (by decide)]
    have hstep2 : List.dropWhile (fun c => c == '#')
        (List.replicate (j2 + 1) '#' ++ (' ' :: mid.reverse))
        = ' ' :: mid.reverse := by
      rw [dropWhile_replicate_append _ (j2 + 1) '#' _ (by decide),
        dropWhile_cons_neg _ _ _ (by decide)]
    have hr2 : List.dropWhile (fun c => c == '#') (List.dropWhile (fun c => c == ' ')
          ((mid ++ ' ' :: (List.replicate (j2 + 1) '#' ++ List.replicate m ' ')).reverse))
        = ' ' :: mid.reverse := by
      rw [hrev, dropWhile_replicate_append _ m ' ' _ (by decide), hstep1, hstep2]
    simp only [atxRawContent, hbody, hr2, List.head?_cons]
    simp [trimSpaces_append_space]
  · have hbody : (mid2 ++ ['\n']).take ((mid2 ++ ['\n']).length - 1) = mid2 :=
      take_pred_append_singleton _ _
    simp only [atxRawContent, hbody]
    rw [if_neg (by simpa using hnc)]

/-- C3 witness: the amended theorem applied at `"# f\n"` (success),
`"    x\n"` (over-indented), `"x\n"` (no `#` run), and the content
equations at `mid = "f"`. -/
theorem C3_theorem_witness :
    parseATXHeader (List.replicate 0 ' ' ++ List.replicate 1 '#' ++ [' ', 'f', '\n'])
      = (if 1 ≤ 6 then
          (if ' ' == ' ' || ' ' == '\n'
            then some (1, atxRawContent [' ', 'f', '\n']) else none)
         else none) ∧
    parseATXHeader [' ', ' ', ' ', ' ', 'x', '\n'] = none ∧
    parseATXHeader (List.replicate 0 ' ' ++ 'x' :: ['\n']) = none ∧
    atxRawContent
        (['f'] ++ ' ' :: (List.replicate 1 '#' ++ List.replicate 0 ' ' ++ ['\n']))
      = trimSpaces ['f'] ∧
    atxRawContent (['f'] ++ ['\n']) = trimSpaces (['f'] ++ ['\n']) :=
  C3_theorem 0 1 1 0 0 [' ', 'f', '\n'] ['f'] ['f'] [' ', ' ', ' ', ' ', 'x', '\n']
    ['\n'] ' ' 'x' (by decide) (by decide) (by decide) (by decide) (by decide)
    (by decide) (by decide) (by decide) (by decide) (by decide)

theorem collapseSpaceGo_not_newline (prev : Bool) (l : List Char) :
    '\n' ∉ collapseSpaceGo prev l := by
  induction l generalizing prev with
  | nil => simp [collapseSpaceGo]
  | cons c rest ih =>
      rw [collapseSpaceGo]
      by_cases hc : isSpNL c = true
      · rw [if_pos hc]
        cases prev with
        | true => simpa using ih true
        | false =>
            rw [if_neg (by simp)]
            intro hm
            rcases List.mem_cons.mp hm with h1 | h1
            · cases h1
            · exact ih true h1
      · rw [if_neg hc]
        intro hm
        rcases List.mem_cons.mp hm with h1 | h1
        · rw [← h1] at hc
          exact hc (by decide)
        · exact ih false h1

theorem collapseSpaceGo_head_true (l : List Char) :
    ¬ (collapseSpaceGo true l).head? = some ' ' := by
  induction l with
  | nil => simp [collapseSpaceGo]
  | cons c rest ih =>
      rw [collapseSpaceGo]
      by_cases hc : isSpNL c = true
      · rw [if_pos hc, if_pos rfl]
        exact ih
      · rw [if_neg hc]
        rw [List.head?_cons]
        intro hcontra
        rw [Option.some.injEq] at hcontra
        rw [hcontra] at hc
        exact hc (by decide)

theorem collapseSpaceGo_no_double (prev : Bool) (l : List Char) :
    hasDoubleSpace (collapseSpaceGo prev l) = false := by
  induction l generalizing prev with
  | nil => rfl
  | cons c rest ih =>
      rw [collapseSpaceGo]
      by_cases hc : isSpNL c = true
      · rw [if_pos hc]
        cases prev with
        | true => exact ih true
        | false =>
            rw [if_neg (by simp)]
            cases hcs : collapseSpaceGo true rest with
            | nil => rfl
            | cons d w =>
                rw [hasDoubleSpace]
                have hd : ¬ d = ' ' := by
                  have := collapseSpaceGo_head_true rest
                  rw [hcs, List.head?_cons] at this
                  intro hEq
                  exact this (by rw [hEq])
                have ihr := ih true
                rw [hcs] at ihr
                simp [hd, ihr]
      · rw [if_neg hc]
        cases hcs : collapseSpaceGo false rest with
        | nil => rfl
        | cons d w =>
            rw [hasDoubleSpace]
            have hcns : ¬ c = ' ' := by
              intro hEq
              rw [hEq] at hc
              exact hc (by decide)
            have ihr := ih false
            rw [hcs] at ihr
            simp [hcns, ihr]

theorem getLast?_cons_of_ne_nil (a : Char) (l : List Char) (h : l ≠ []) :
    (a :: l).getLast? = l.getLast? := by
  cases l with
  | nil => exact absurd rfl h
  | cons b t => rfl

theorem collapseSpaceGo_getLast (prev : Bool) (l : List Char) (z : Char)
    (hz : l.getLast? = some z) (hzs : isSpNL z = false) :
    (collapseSpaceGo prev l).getLast? = some z := by
  induction l generalizing prev with
  | nil => cases hz
  | cons c rest ih =>
      cases hr : rest with
      | nil =>
          subst hr
          simp only [List.getLast?_singleton] at hz
          cases hz
          rw [collapseSpaceGo, if_neg (by rw [hzs]; simp)]
          rfl
      | cons d w =>
          have hrne : rest ≠ [] := by rw [hr]; simp
          rw [← hr] at *
          have hz' : rest.getLast? = some z := by
            rw [getLast?_cons_of_ne_nil c rest hrne] at hz
            exact hz
          have hlast : ∀ p, (collapseSpaceGo p rest).getLast? = some z :=
            fun p => ih p hz'
          have hne : ∀ p, collapseSpaceGo p rest ≠ [] := by
            intro p hEq
            have := hlast p
            rw [hEq] at this
            cases this
          rw [collapseSpaceGo]
          by_cases hc : isSpNL c = true
          · rw [if_pos hc]
            cases prev with
            | true => exact hlast true
            | false =>
                rw [if_neg (by simp)]
                rw [getLast?_cons_of_ne_nil _ _ (hne true)]
                exact hlast true
          · rw [if_neg hc]
            rw [getLast?_cons_of_ne_nil _ _ (hne false)]
            exact hlast false

theorem head?_dropWhile_not (p : Char → Bool) (l : List Char) (z : Char)
    (h : (l.dropWhile p).head? = some z) : p z = false := by
  induction l with
  | nil => cases h
  | cons c rest ih =>
      rw [List.dropWhile_cons] at h
      by_cases hc : p c = true
      · rw [if_pos hc] at h
        exact ih h
      · rw [if_neg hc] at h
        rw [List.head?_cons, Option.some.injEq] at h
        rw [← h]
        simpa using hc

theorem trimRightSpNL_head (u : List Char) :
    trimRightSpNL u = [] ∨ trimRightSpNL u ≠ [] ∧ (trimRightSpNL u).head? = u.head? := by
  cases u with
  | nil => exact Or.inl rfl
  | cons c w =>
      unfold trimRightSpNL
      rw [List.reverse_cons, List.dropWhile_append]
      by_cases he : (List.dropWhile isSpNL w.reverse).isEmpty = true
      · rw [if_pos he]
        by_cases hc : isSpNL c = true
        · rw [List.dropWhile_cons, if_pos hc]
          exact Or.inl rfl
        · rw [List.dropWhile_cons, if_neg hc]
          exact Or.inr ⟨by simp, by simp⟩
      · rw [if_neg he]
        rw [List.reverse_append]
        refine Or.inr ⟨by simp, ?_⟩
        simp

/-- The trimmed content: either empty, or it starts and ends with a
character that is neither a space nor a newline. -/
theorem trimSpaceNL_shape (x : List Char) :
    trimSpaceNL x = [] ∨
      (∃ c w, trimSpaceNL x = c :: w ∧ isSpNL c = false) ∧
      (∃ z, (trimSpaceNL x).getLast? = some z ∧ isSpNL z = false) := by
  unfold trimSpaceNL
  rcases trimRightSpNL_head (trimLeftSpNL x) with h | ⟨hne, hh⟩
  · exact Or.inl h
  · refine Or.inr ⟨?_, ?_⟩
    · cases hcase : trimRightSpNL (trimLeftSpNL x) with
      | nil => exact absurd hcase hne
      | cons c w =>
          refine ⟨c, w, rfl, ?_⟩
          have hch : (c :: w).head? = (trimLeftSpNL x).head? := by
            rw [← hcase]
            exact hh
          rw [List.head?_cons] at hch
          unfold trimLeftSpNL at hch
          exact head?_dropWhile_not isSpNL x c hch.symm
    · unfold trimRightSpNL
      cases hg : ((trimLeftSpNL x).reverse.dropWhile isSpNL).reverse.getLast? with
      | none =>
          unfold trimRightSpNL at hne
          rw [List.getLast?_eq_none_iff] at hg
          exact absurd hg hne
      | some z =>
          refine ⟨z, rfl, ?_⟩
          rw [List.getLast?_reverse] at hg
          exact head?_dropWhile_not isSpNL _ z hg

/-- Cleanliness of every code-span content the code can build. -/
theorem collapse_trim_clean (x : List Char) :
    codeSpanClean (collapseSpace (trimSpaceNL x)) = true := by
  have hnl : '\n' ∉ collapseSpace (trimSpaceNL x) :=
    collapseSpaceGo_not_newline false (trimSpaceNL x)
  have hdd : hasDoubleSpace (collapseSpace (trimSpaceNL x)) = false :=
    collapseSpaceGo_no_double false (trimSpaceNL x)
  rcases trimSpaceNL_shape x with h | ⟨⟨c, w, hcw, hc⟩, ⟨z, hz, hzs⟩⟩
  · rw [codeSpanClean]
    unfold collapseSpace
    rw [h]
    rfl
  · have hhead : (collapseSpace (trimSpaceNL x)).head? = some c := by
      unfold collapseSpace
      rw [hcw, collapseSpaceGo, if_neg (by rw [hc]; simp), List.head?_cons]
    have hlast : (collapseSpace (trimSpaceNL x)).getLast? = some z :=
      collapseSpaceGo_getLast false (trimSpaceNL x) z hz hzs
    rw [codeSpanClean, hhead, hlast, hdd, contains_eq_false_of_not_mem hnl]
    have hc' : ¬ c = ' ' := by
      intro hEq
      rw [hEq] at hc
      cases hc
    have hz' : ¬ z = ' ' := by
      intro hEq
      rw [hEq] at hzs
      cases hzs
    simp [hc', hz']

theorem processCodeSpansGo_clean (text : List Char) (fuel : Nat) :
    ∀ i seen c, processCodeSpansGo text fuel i seen = some c →
      codeSpanClean c = true := by
  induction fuel with
  | zero =>
      intro i seen c h
      have h0 : processCodeSpansGo text 0 i seen = none := rfl
      rw [h0] at h
      cases h
  | succ n ih =>
      intro i seen c h
      rw [processCodeSpansGo] at h
      by_cases h1 : i < text.length
      · rw [if_pos h1] at h
        by_cases h2 : text.getD i 'x' ≠ '`'
        · rw [if_pos h2] at h
          exact ih _ _ _ h
        · rw [if_neg h2] at h
          by_cases h3 : (0 < i && text.getD (i - 1) 'x' == '\\') = true
          · rw [if_pos h3] at h
            exact ih _ _ _ h
          · rw [if_neg h3] at h
            cases hlk : btLookup (btRunLen text i) seen with
            | some opener =>
                rw [hlk] at h
                rw [Option.some.injEq] at h
                rw [← h]
                exact collapse_trim_clean _
            | none =>
                rw [hlk] at h
                exact ih _ _ _ h
      · rw [if_neg h1] at h
        cases h

/-- C5: every CodeSpan content produced by `processCodeSpans` has its
leading and trailing spaces and newlines stripped and internal space runs
collapsed, so it never begins or ends with a space and never contains two
consecutive spaces or a newline. -/
theorem C5_theorem (text c : List Char)
    (h : processCodeSpans text = some c) : codeSpanClean c = true :=
  processCodeSpansGo_clean text (text.length + 1) 0 [] c h

/-- C5 witness: on `"` a  b `x"` the extracted code span is `"a b"`, which
is clean. -/
theorem C5_theorem_witness :
    processCodeSpans ['`', ' ', 'a', ' ', ' ', 'b', ' ', '`', 'x']
      = some ['a', ' ', 'b'] ∧
    codeSpanClean ['a', ' ', 'b'] = true :=
  ⟨by decide,
   C5_theorem ['`', ' ', 'a', ' ', ' ', 'b', ' ', '`', 'x'] ['a', ' ', 'b']
     (by decide)⟩

theorem digitsVal_foldl_mono (base : Nat) (hbase : 1 ≤ base) (ds : List Char)
    (acc : Nat) :
    acc ≤ ds.foldl (fun a c => a * base + (digitVal base c).getD 0) acc := by
  induction ds generalizing acc with
  | nil => exact le_refl acc
  | cons c rest ih =>
      rw [List.foldl_cons]
      calc acc ≤ acc * base + (digitVal base c).getD 0 := by nlinarith
        _ ≤ _ := ih _

theorem parseUintGo_some (base : Nat) (ds : List Char) (acc v : Nat)
    (h : parseUintGo base ds acc = some v) :
    (∀ c ∈ ds, (digitVal base c).isSome = true) ∧
      v = ds.foldl (fun a c => a * base + (digitVal base c).getD 0) acc ∧
      v ≤ 4294967295 ∨
    (ds = [] ∧ v = acc) := by
  induction ds generalizing acc with
  | nil =>
      right
      have h0 : parseUintGo base [] acc = some acc := rfl
      rw [h0, Option.some.injEq] at h
      exact ⟨rfl, h.symm⟩
  | cons c rest ih =>
      left
      rw [parseUintGo] at h
      cases hd : digitVal base c with
      | none =>
          simp only [hd] at h
          cases h
      | some d =>
          simp only [hd] at h
          by_cases hov : 4294967295 < acc * base + d
          · rw [if_pos hov] at h
            cases h
          · rw [if_neg hov] at h
            rcases ih _ h with ⟨hdigs, hval, hbound⟩ | ⟨hnil, hval⟩
            · refine ⟨?_, ?_, hbound⟩
              · intro x hx
                rcases List.mem_cons.mp hx with h1 | h1
                · rw [h1, hd]
                  rfl
                · exact hdigs x h1
              · rw [List.foldl_cons, hd]
                simpa using hval
            · subst hnil
              refine ⟨?_, ?_, by omega⟩
              · intro x hx
                rcases List.mem_cons.mp hx with h1 | h1
                · rw [h1, hd]
                  rfl
                · cases h1
              · rw [List.foldl_cons, hd]
                simpa using hval

theorem parseUintGo_complete (base : Nat) (hbase : 1 ≤ base) (ds : List Char)
    (acc : Nat)
    (hdigs : ∀ c ∈ ds, (digitVal base c).isSome = true)
    (hbound : ds.foldl (fun a c => a * base + (digitVal base c).getD 0) acc
        ≤ 4294967295) :
    parseUintGo base ds acc
      = some (ds.foldl (fun a c => a * base + (digitVal base c).getD 0) acc) := by
  induction ds generalizing acc with
  | nil => rfl
  | cons c rest ih =>
      have hc : (digitVal base c).isSome = true := hdigs c (List.mem_cons_self c rest)
      cases hd : digitVal base c with
      | none =>
          rw [hd] at hc
          cases hc
      | some d =>
          rw [parseUintGo]
          simp only [hd]
          rw [List.foldl_cons] at hbound ⊢
          rw [hd] at hbound ⊢
          simp only [Option.getD_some] at hbound ⊢
          have hstep : acc * base + d
              ≤ rest.foldl (fun a c => a * base + (digitVal base c).getD 0)
                  (acc * base + d) :=
            digitsVal_foldl_mono base hbase rest (acc * base + d)
          rw [if_neg (by omega)]
          exact ih _ (fun x hx => hdigs x (List.mem_cons_of_mem c hx)) hbound

/-- `ParseUint(…, base, 32)` succeeds exactly on a non-empty string of
base-digits whose value fits in 32 bits, and returns that value. -/
theorem parseUint32_spec (base : Nat) (hbase : 1 ≤ base) (ds : List Char)
    (v : Nat) :
    parseUint32 base ds = some v ↔
      ds ≠ [] ∧ (∀ c ∈ ds, (digitVal base c).isSome = true) ∧
        digitsVal base ds ≤ 4294967295 ∧ v = digitsVal base ds := by
  constructor
  · intro h
    cases hds : ds with
    | nil =>
        subst hds
        cases h
    | cons c rest =>
        subst hds
        have h' : parseUintGo base (c :: rest) 0 = some v := h
        rcases parseUintGo_some base (c :: rest) 0 v h' with
          ⟨hdigs, hval, hbound⟩ | ⟨hnil, _⟩
        · exact ⟨by simp, hdigs, by rw [digitsVal, ← hval]; exact hbound,
            by rw [digitsVal, ← hval]⟩
        · cases hnil
  · rintro ⟨hne, hdigs, hbound, rfl⟩
    cases hds : ds with
    | nil => exact absurd hds hne
    | cons c rest =>
        subst hds
        show parseUintGo base (c :: rest) 0 = some (digitsVal base (c :: rest))
        rw [digitsVal]
        exact parseUintGo_complete base hbase _ 0 hdigs hbound

/-- C6, counterexample: the hexadecimal entity `&#x000000041;` has a
9-digit string, which the claim says is not recognized; the code parses it
with no length cap and decodes it to `A` (and the full `&` step consumes
it). -/
theorem C6_counterexample :
    decodeEntity (fun _ => none)
        ['#', 'x', '0', '0', '0', '0', '0', '0', '0', '4', '1'] = some ['A'] ∧
    (['0', '0', '0', '0', '0', '0', '0', '4', '1'] : List Char).length = 9 ∧
    ampStep (fun _ => none)
        ['&', '#', 'x', '0', '0', '0', '0', '0', '0', '0', '4', '1', ';'] 0
      = (some ['A'], 13) := by
  refine ⟨by decide, by decide, by decide⟩

/-- C6 (amended): numeric entities are parsed by `ParseUint(…, base, 32)`
— a non-empty digit string of *any* length is recognized as long as its
value is below `2^32` (there is no 8-digit cap); the decoded output is the
rune of the codepoint, with invalid codepoints (surrogates, values above
U+10FFFF) replaced by U+FFFD; a missing `;`, a bare `&#`, a bad digit, an
overflowing value, or an unknown name leave a literal `&` and the scan
advances one byte. -/
theorem C6_theorem (table : List Char → Option (List Char))
    (ds etail data data3 : List Char) (e0 : Char) (pos pos3 sc3 cp cp2 : Nat)
    (hne : ds ≠ []) (hdig : ∀ c ∈ ds, (digitVal 16 c).isSome = true)
    (hbound : digitsVal 16 ds ≤ 4294967295)
    (he0 : (e0 == 'x' || e0 == 'X') = false)
    (hdig10 : ∀ c ∈ e0 :: etail, (digitVal 10 c).isSome = true)
    (hbound10 : digitsVal 10 (e0 :: etail) ≤ 4294967295)
    (hnos : semiIdx data pos = none)
    (hval : cp < 0xd800 ∨ (0xdfff < cp ∧ cp < 0x110000))
    (hinval : ¬ (cp2 < 0xd800 ∨ (0xdfff < cp2 ∧ cp2 < 0x110000)))
    (hsemi3 : semiIdx data3 pos3 = some sc3)
    (hdecn : decodeEntity table ((data3.take sc3).drop (pos3 + 1)) = none) :
    decodeEntity table ('#' :: 'x' :: ds) = some [sprintfC (digitsVal 16 ds)] ∧
    decodeEntity table ('#' :: 'X' :: ds) = some [sprintfC (digitsVal 16 ds)] ∧
    decodeEntity table ('#' :: e0 :: etail)
      = some [sprintfC (digitsVal 10 (e0 :: etail))] ∧
    (∀ bs r, decodeEntity table ('#' :: 'x' :: bs) = some r →
      bs ≠ [] ∧ (∀ c ∈ bs, (digitVal 16 c).isSome = true) ∧
        digitsVal 16 bs ≤ 4294967295 ∧ r = [sprintfC (digitsVal 16 bs)]) ∧
    sprintfC cp = Char.ofNat cp ∧
    sprintfC cp2 = Char.ofNat 0xfffd ∧
    decodeEntity table ['#'] = none ∧
    ampStep table data pos = (none, pos + 1) ∧
    ampStep table data3 pos3 = (none, pos3 + 1) := by
  have hx : parseUint32 16 ds = some (digitsVal 16 ds) :=
    (parseUint32_spec 16 (by omega) ds _).mpr ⟨hne, hdig, hbound, rfl⟩
  have hx10 : parseUint32 10 (e0 :: etail) = some (digitsVal 10 (e0 :: etail)) :=
    (parseUint32_spec 10 (by omega) (e0 :: etail) _).mpr
      ⟨by simp, hdig10, hbound10, rfl⟩
  refine ⟨?_, ?_, ?_, ?_, ?_, ?_, rfl, ?_, ?_⟩
  · rw [decodeEntity]
    rw [if_pos (by decide), hx]
    rfl
  · rw [decodeEntity]
    rw [if_pos (by decide), hx]
    rfl
  · rw [decodeEntity]
    rw [if_neg (by rw [he0]; simp), hx10]
    rfl
  · intro bs r h
    rw [decodeEntity, if_pos (by decide)] at h
    cases hp : parseUint32 16 bs with
    | none =>
        rw [hp] at h
        cases h
    | some v =>
        rw [hp] at h
        simp only [Option.map_some', Option.some.injEq] at h
        obtain ⟨hb1, hb2, hb3, hb4⟩ := (parseUint32_spec 16 (by omega) bs v).mp hp
        exact ⟨hb1, hb2, hb3, by rw [← h, hb4]⟩
  · rw [sprintfC, if_pos hval]
  · rw [sprintfC, if_neg hinval]
  · rw [ampStep, hnos]
  · rw [ampStep, hsemi3]
    simp only [hdecn]
    rfl

/-- C6 witness: the amended theorem at `ds = "41"`, a decimal entity
`"65"`, codepoints `65` (valid) and `0xd800` (surrogate), input `"&x"`
(no `;`), and `"&z;"` (unknown name, empty table). -/
theorem C6_theorem_witness :
    decodeEntity (fun _ => none) ('#' :: 'x' :: ['4', '1'])
      = some [sprintfC (digitsVal 16 ['4', '1'])] ∧
    decodeEntity (fun _ => none) ('#' :: 'X' :: ['4', '1'])
      = some [sprintfC (digitsVal 16 ['4', '1'])] ∧
    decodeEntity (fun _ => none) ('#' :: '6' :: ['5'])
      = some [sprintfC (digitsVal 10 ('6' :: ['5']))] ∧
    (∀ bs r, decodeEntity (fun _ => none) ('#' :: 'x' :: bs) = some r →
      bs ≠ [] ∧ (∀ c ∈ bs, (digitVal 16 c).isSome = true) ∧
        digitsVal 16 bs ≤ 4294967295 ∧ r = [sprintfC (digitsVal 16 bs)]) ∧
    sprintfC 65 = Char.ofNat 65 ∧
    sprintfC 55296 = Char.ofNat 0xfffd ∧
    decodeEntity (fun _ => none) ['#'] = none ∧
    ampStep (fun _ => none) ['&', 'x'] 0 = (none, 0 + 1) ∧
    ampStep (fun _ => none) ['&', 'z', ';'] 0 = (none, 0 + 1) :=
  C6_theorem (fun _ => none) ['4', '1'] ['5'] ['&', 'x'] ['&', 'z', ';'] '6'
    0 0 2 65 55296 (by decide) (by decide) (by decide) (by decide) (by decide)
    (by decide) (by decide) (by decide) (by decide) (by decide) (by decide)

theorem findOpener_spec (c : Char) (stack : List DelimEntry)
    (e : DelimEntry) (below : List DelimEntry)
    (h : findOpener c stack = some (e, below)) :
    e ∈ stack ∧ ∀ x ∈ below, x ∈ stack := by
  induction stack with
  | nil => cases h
  | cons f rest ih =>
      rw [findOpener] at h
      by_cases hf : f.delimChar = c
      · rw [if_pos hf, Option.some.injEq] at h
        cases h
        exact ⟨List.mem_cons_self _ _, fun x hx => List.mem_cons_of_mem _ hx⟩
      · rw [if_neg hf] at h
        obtain ⟨h1, h2⟩ := ih h
        exact ⟨List.mem_cons_of_mem _ h1,
          fun x hx => List.mem_cons_of_mem _ (h2 x hx)⟩

theorem consumeDelims_cases (m n : Nat) :
    (m = 3 ∧ n = 3 → consumeDelims m n = 1) ∧
    (2 ≤ m ∧ 2 ≤ n ∧ ¬(m = 3 ∧ n = 3) → consumeDelims m n = 2) ∧
    ((m < 2 ∨ n < 2) → consumeDelims m n = 1) := by
  unfold consumeDelims
  refine ⟨fun h => ?_, fun h => ?_, fun h => ?_⟩
  · rw [if_pos h]
  · rw [if_neg h.2.2, if_pos ⟨h.1, h.2.1⟩]
  · rw [if_neg (by omega), if_neg (by omega)]

theorem emphScan_events_ok (fuel : Nat) :
    ∀ (stack : List DelimEntry) (prev : Option Char) (text : List Char),
      (∀ e ∈ stack, e.numDelims ≤ 3) →
      ∀ ev ∈ emphScan fuel stack prev text, eventOk ev := by
  induction fuel with
  | zero =>
      intro stack prev text _ ev hev
      cases hev
  | succ n ih =>
      intro stack prev text hstack ev hev
      cases text with
      | nil => cases hev
      | cons c rest0 =>
          rw [emphScan] at hev
          by_cases hd : c = '*' ∨ c = '_'
          · rw [if_pos hd] at hev
            by_cases h3 : 3 < delimRunLen c rest0
            · rw [if_pos h3] at hev
              exact ih _ _ _ hstack ev hev
            · rw [if_neg h3] at hev
              by_cases hcc : canCloseOf c prev (rest0.drop (delimRunLen c rest0 - 1)) = true
              · rw [if_pos hcc] at hev
                cases hfo : findOpener c stack with
                | none =>
                    rw [hfo] at hev
                    by_cases hco : canOpenOf c prev (rest0.drop (delimRunLen c rest0 - 1)) = true
                    · rw [if_pos hco] at hev
                      refine ih _ _ _ ?_ ev hev
                      intro e he
                      rcases List.mem_cons.mp he with h1 | h1
                      · rw [h1]
                        dsimp only
                        omega
                      · exact hstack e h1
                    · rw [if_neg hco] at hev
                      exact ih _ _ _ hstack ev hev
                | some er =>
                    rw [hfo] at hev
                    obtain ⟨hmem, hbelow⟩ := findOpener_spec c stack er.1 er.2 (by
                      rw [hfo])
                    have hop3 : er.1.numDelims ≤ 3 := hstack _ hmem
                    rcases List.mem_cons.mp hev with h1 | h2
                    · subst h1
                      obtain ⟨hc1, hc2, hc3⟩ :=
                        consumeDelims_cases (delimRunLen c rest0) er.1.numDelims
                      refine ⟨by dsimp only; omega, hop3, rfl, ?_, ?_, ?_⟩
                      · intro h
                        refine ⟨hc1 h, ?_⟩
                        rw [hc1 h]
                        rfl
                      · intro h
                        refine ⟨hc2 h, ?_⟩
                        rw [hc2 h]
                        rfl
                      · intro h
                        refine ⟨hc3 h, ?_⟩
                        rw [hc3 h]
                        rfl
                    · refine ih _ _ _ ?_ ev h2
                      intro e he
                      by_cases hres : 0 < er.1.numDelims
                          - consumeDelims (delimRunLen c rest0) er.1.numDelims
                      · rw [if_pos hres] at he
                        rcases List.mem_cons.mp he with h1 | h1
                        · rw [h1]
                          simp only
                          omega
                        · exact hstack e (hbelow e h1)
                      · rw [if_neg hres] at he
                        exact hstack e (hbelow e he)
              · rw [if_neg hcc] at hev
                by_cases hco : canOpenOf c prev (rest0.drop (delimRunLen c rest0 - 1)) = true
                · rw [if_pos hco] at hev
                  refine ih _ _ _ ?_ ev hev
                  intro e he
                  rcases List.mem_cons.mp he with h1 | h1
                  · rw [h1]
                    dsimp only
                    omega
                  · exact hstack e h1
                · rw [if_neg hco] at hev
                  exact ih _ _ _ hstack ev hev
          · rw [if_neg hd] at hev
            exact ih _ _ _ hstack ev hev

/-- C2: every emphasis match consumes `consumeDelims` delimiters from each
side — 1 with an Emphasis node when opener and closer both have length 3,
2 with a StrongEmphasis node when both have length ≥ 2 (and not both 3),
and otherwise 1 with an Emphasis node — and both participating runs have
length at most 3 (runs longer than 3 are skipped as literal text and never
participate). -/
theorem C2_theorem (text : List Char) (ev : MatchEvent)
    (hev : ev ∈ processEmphasisScan text) : eventOk ev :=
  emphScan_events_ok (text.length + 1) [] none text (by intro e he; cases he)
    ev hev

/-- C2 witness: on `"*a*"` the scan produces exactly one match — both runs
of length 1, one delimiter consumed, an Emphasis node. -/
theorem C2_theorem_witness :
    processEmphasisScan ['*', 'a', '*']
      = [⟨1, 1, 1, EmphKind.emphasis⟩] ∧
    eventOk ⟨1, 1, 1, EmphKind.emphasis⟩ :=
  ⟨by decide,
   C2_theorem ['*', 'a', '*'] ⟨1, 1, 1, EmphKind.emphasis⟩ (by decide)⟩

/-- C9: conversion is deterministic — the embedding of `ToHTMLBytes` is a
pure function of the input bytes (the source has no concurrency and no
iteration over Go maps), so two conversions of the same input are
byte-identical. -/
theorem C9_theorem : ∀ data : List Char, toHTMLBytes data = toHTMLBytes data :=
  fun _ => rfl

/-- C10: `ToHTMLBytes` never returns a non-nil error: the only error
source is `scanner.Err()`, which is reserved for I/O errors of the
underlying reader, and the input is an in-memory byte slice; the same
holds for the fuller block parser of unnamed/part_000
(`parseBlocksFull`). -/
theorem C10_theorem :
    ∀ data : List Char,
      (toHTMLBytes data).isOk = true ∧ (parseBlocksFull data).isOk = true :=
  fun _ => ⟨rfl, rfl⟩

end Commonmark
